import Mathlib

/-!
Verification development for the `slate-md-serializer` repository.

We give a shallow embedding of the repository's renderer and escaping code:

* `MdEscape` embeds `src/utils.js` (`escapeMarkdownChars`), a pipeline of
  eight JavaScript `String.replace` passes; each pass is translated as a
  function on `List Char` with the semantics of the corresponding regex
  (global, non-overlapping, leftmost, greedy; `^` anchored without the `m`
  flag matches only at the start of the string; `.` does not match `'\n'`;
  `\s` is modelled by the ASCII whitespace class, `\w` by
  `[A-Za-z0-9_]`).
* `RendererJs` embeds the mark-serialization and code-block rules of
  `src/renderer.js` (the renderer variant that threads `openMarks`
  adjacency state through `serializeLeaves`, and escapes fence sequences
  inside code blocks).
* `SerializerMain` embeds the serializer variant of the unnamed source file
  `part_001` (the one exercised by the test suite in `part_000`): its
  module-level renderer state (`tableHeader`, `firstRow`, `version`,
  `previousBlock`, `currentBlock`) is made an explicit state record that
  every rule threads, and `serialize` / `serializeNode` /
  `serializeLeaves` and the whole `RULES` chain are translated case by
  case.

JavaScript truthiness in the rule chain (`if (ret) return ret`) makes an
empty string interchangeable with `undefined`: in both cases the chain
falls through and the caller turns the result into `''`.  No rule later in
the chain matches the objects handled by an earlier rule, so the embedding
collapses `undefined` and `""` to `[]` where the distinction is
unobservable; where it is observable (`serializeString` of an empty text,
the guard `if (!children) return` in the mark rule) the embedding keeps
the exact behaviour.
-/

namespace MdEscape

/-- Convert a string literal to the character-list representation used
throughout this development. -/
def str (s : String) : List Char := s.data

/-- JavaScript whitespace class `\s`, restricted to ASCII. -/
def isWS (c : Char) : Bool :=
  c = ' ' || c = '\t' || c = '\n' || c = '\r' || c = '\x0b' || c = '\x0c'

/-- JavaScript word-character class `\w`. -/
def isWordChar (c : Char) : Bool :=
  ('a' ≤ c && c ≤ 'z') || ('A' ≤ c && c ≤ 'Z') || ('0' ≤ c && c ≤ '9') || c = '_'

/-- Whether `pat` occurs as a contiguous subsequence of `l`. -/
def containsSeq (pat : List Char) : List Char → Bool
  | [] => pat.isPrefixOf []
  | c :: rest => pat.isPrefixOf (c :: rest) || containsSeq pat rest

/-- Strip whitespace from the front of a string (`.replace(/^\s+/g, "")`,
and the left half of `String.prototype.trim`). -/
def trimLeft (l : List Char) : List Char := l.dropWhile isWS

/-- JavaScript `String.prototype.trim` on our character lists. -/
def trim (l : List Char) : List Char :=
  ((l.dropWhile isWS).reverse.dropWhile isWS).reverse

/-- Pass 1 of `escapeMarkdownChars`: `result.replace(/([\\])/gi, "\\$1")` –
every backslash is doubled. -/
def escBackslash : List Char → List Char
  | [] => []
  | c :: rest => if c = '\\' then '\\' :: '\\' :: escBackslash rest
                 else c :: escBackslash rest

/-- Pass 2: `result.replace(/^(\s*\w+)\./gi, "$1\\.")` – a leading
whitespace-then-word-run followed by a period gets the period escaped.
The regex is anchored, so at most the start of the string is rewritten;
`\s` and `\w` are disjoint and `'.'` belongs to neither class, so the
greedy match is the maximal whitespace run followed by the maximal
(nonempty) word run. -/
def escLeadingPeriod (l : List Char) : List Char :=
  let ws := l.takeWhile isWS
  let r1 := l.dropWhile isWS
  let w := r1.takeWhile isWordChar
  let r2 := r1.dropWhile isWordChar
  match w, r2 with
  | _ :: _, '.' :: rest => ws ++ w ++ '\\' :: '.' :: rest
  | _, _ => l

/-- Pass 3: `result.replace(/(#\s)/gi, "\\$1")` – every `#` immediately
followed by whitespace gets a backslash inserted in front (global,
non-overlapping, left to right). -/
def escHashGo : Nat → List Char → List Char
  | 0, l => l
  | _ + 1, [] => []
  | fuel + 1, c :: rest =>
      match rest with
      | d :: rest' =>
          if c = '#' && isWS d then '\\' :: '#' :: d :: escHashGo fuel rest'
          else c :: escHashGo fuel rest
      | [] => [c]

/-- Pass 3 entry point: `fuel = l.length` always suffices because every
step strictly shrinks the text. -/
def escHash (l : List Char) : List Char := escHashGo l.length l

/-- Passes 4–6 share this shape: `result.replace(/^(\s*)X/gi, "$1\\X")` –
escape a leading marker character, preserving leading whitespace. -/
def escLeading (x : Char) (l : List Char) : List Char :=
  let ws := l.takeWhile isWS
  match l.dropWhile isWS with
  | c :: rest => if c = x then ws ++ '\\' :: c :: rest else l
  | [] => l

/-- Whether a segment is free of `'\n'` (the JavaScript `.` class). -/
def noNl (l : List Char) : Bool := !(l.contains '\n')

/-- Inner match of `(.*)\]\((.*)\)` against `t` (the part of the image /
link regexes after the opening bracket): find `t = A ++ "](" ++ B ++ ")"
++ C` with `A` and `B` newline-free, choosing the greedy (largest) `A`
first and then the greedy `B`, exactly as the backtracking regex engine
does. -/
def innerMatch (t : List Char) : Option (List Char × List Char × List Char) :=
  let ks := (List.range t.length).filter (fun k =>
    noNl (t.take k) && t.getD k ' ' = ']' && t.getD (k + 1) ' ' = '(' &&
      (let u := t.drop (k + 2)
       (List.range u.length).any (fun m => noNl (u.take m) && u.getD m ' ' = ')')))
  match ks.max? with
  | none => none
  | some k =>
      let u := t.drop (k + 2)
      let ms := (List.range u.length).filter (fun m => noNl (u.take m) && u.getD m ' ' = ')')
      match ms.max? with
      | none => none
      | some m => some (t.take k, u.take m, u.drop (m + 1))

theorem innerMatch_length {t A B C : List Char}
    (h : innerMatch t = some (A, B, C)) : C.length ≤ t.length := by
  unfold innerMatch at h
  simp only at h
  split at h
  · exact absurd h (by simp)
  · split at h
    · exact absurd h (by simp)
    · simp only [Option.some.injEq, Prod.mk.injEq] at h
      obtain ⟨-, -, hC⟩ := h
      subst hC
      simp only [List.length_drop]
      omega

/-- Pass 7 worker: the scan of
`result.replace(/!\[(.*)\]\((.*)\)/gi, "\\![$1]($2)")`, which escapes the
leading `!` of every image construct.  The `fuel` argument is a totality
device only: every step strictly shrinks the text (`innerMatch_length`),
so `fuel = l.length` never runs out; structural recursion on `fuel` keeps
the function kernel-computable. -/
def escImageGo : Nat → List Char → List Char
  | 0, l => l
  | _ + 1, [] => []
  | fuel + 1, c :: rest =>
      match rest with
      | d :: rest' =>
          if c = '!' && d = '[' then
            match innerMatch rest' with
            | some (A, B, C) =>
                '\\' :: '!' :: '[' :: (A ++ ']' :: '(' :: B ++ ')' :: escImageGo fuel C)
            | none => c :: escImageGo fuel rest
          else c :: escImageGo fuel rest
      | [] => [c]

/-- Pass 7: escape the leading `!` of every image construct. -/
def escImage (l : List Char) : List Char := escImageGo l.length l

/-- Pass 8 worker: the scan of
`result.replace(/\[(.*)\]\((.*)\)/gi, "[$1]\\($2\\)")`, which escapes the
parentheses of every link construct; `fuel` as in `escImageGo`. -/
def escLinkGo : Nat → List Char → List Char
  | 0, l => l
  | _ + 1, [] => []
  | fuel + 1, c :: rest =>
      if c = '[' then
        match innerMatch rest with
        | some (A, B, C) =>
            '[' :: (A ++ ']' :: '\\' :: '(' :: B ++ '\\' :: ')' :: escLinkGo fuel C)
        | none => '[' :: escLinkGo fuel rest
      else c :: escLinkGo fuel rest

/-- Pass 8: escape the parentheses of every link construct. -/
def escLink (l : List Char) : List Char := escLinkGo l.length l

/-- The catch-all character class `` [`*{}\[\]_] `` of the final pass. -/
def isCatchAll (c : Char) : Bool :=
  c = '\x60' || c = '*' || c = '\x7b' || c = '\x7d' || c = '[' || c = ']' || c = '_'

/-- Final pass: `result.replace(/([`*{}\[\]_])/gi, "\\$1")`. -/
def escCatchAll : List Char → List Char
  | [] => []
  | c :: rest => if isCatchAll c then '\\' :: c :: escCatchAll rest
                 else c :: escCatchAll rest

/-- The full `escapeMarkdownChars` pipeline of `src/utils.js`, with the
passes applied in the source order. -/
def escapeMarkdownChars (l : List Char) : List Char :=
  escCatchAll (escLink (escImage (escLeading '+' (escLeading '-' (escLeading '>'
    (escHash (escLeadingPeriod (escBackslash l))))))))

example : escapeMarkdownChars (str "# text") = str "\\# text" := by decide
example : escapeMarkdownChars (str "- text") = str "\\- text" := by decide
example : escapeMarkdownChars (str "* text") = str "\\* text" := by decide
example : escapeMarkdownChars (str "this is **not bold**")
    = str "this is \\*\\*not bold\\*\\*" := by decide
example : escapeMarkdownChars (str "this is a #hashtag") = str "this is a #hashtag" := by
  decide
example : escapeMarkdownChars (str "this not a # hashtag")
    = str "this not a \\# hashtag" := by decide
example : escapeMarkdownChars (str "this is [not](a link)")
    = str "this is \\[not\\]\\(a link\\)" := by decide
example : escapeMarkdownChars (str "this is ![not](an image)")
    = str "this is \\!\\[not\\]\\(an image\\)" := by decide
example : escapeMarkdownChars (str "do not escape!") = str "do not escape!" := by decide
example : escapeMarkdownChars (str " 1a. item.") = str " 1a\\. item." := by decide
example : escapeMarkdownChars (str " > quote") = str " \\> quote" := by decide
example : escapeMarkdownChars (str "<br>") = str "<br>" := by decide

/-! Auxiliary predicates describing the shapes the escaping passes react
to, used to state when a pass is the identity. -/

/-- Whether some `#` in `l` is immediately followed by whitespace (the
trigger of pass 3). -/
def hasHashWS (l : List Char) : Bool :=
  (l.zip l.tail).any (fun p => p.1 = '#' && isWS p.2)

/-- Whether `l` begins (after optional whitespace) with a nonempty word
run followed by a period (the trigger of pass 2). -/
def startsWordPeriod (l : List Char) : Bool :=
  match (l.dropWhile isWS).takeWhile isWordChar, (l.dropWhile isWS).dropWhile isWordChar with
  | _ :: _, '.' :: _ => true
  | _, _ => false

/-! Identity lemmas: each pass leaves a string alone when its trigger is
absent. -/

theorem escBackslash_id {l : List Char} (h : '\\' ∉ l) : escBackslash l = l := by
  induction l with
  | nil => rfl
  | cons c rest ih =>
      simp only [List.mem_cons, not_or] at h
      simp [escBackslash, Ne.symm h.1, ih h.2]

theorem escLeadingPeriod_id {l : List Char} (h : startsWordPeriod l = false) :
    escLeadingPeriod l = l := by
  unfold escLeadingPeriod
  unfold startsWordPeriod at h
  dsimp only
  split
  · rename_i heq1 heq2
    rw [heq1, heq2] at h
    simp at h
  · rfl

theorem escHashGo_nil (fuel : Nat) : escHashGo fuel [] = [] := by
  cases fuel <;> rfl

theorem hasHashWS_cons₂ (c d : Char) (rest : List Char) :
    hasHashWS (c :: d :: rest) = ((c = '#' && isWS d) || hasHashWS (d :: rest)) := by
  simp [hasHashWS]

theorem escHashGo_id (fuel : Nat) {l : List Char}
    (h : hasHashWS l = false) : escHashGo fuel l = l := by
  induction fuel generalizing l with
  | zero => rfl
  | succ fuel ih =>
      match l with
      | [] => rfl
      | [c] => rfl
      | c :: d :: rest =>
          rw [hasHashWS_cons₂] at h
          simp only [Bool.or_eq_false_iff] at h
          simp [escHashGo, h.1, ih h.2]

theorem escHash_id {l : List Char} (h : hasHashWS l = false) : escHash l = l :=
  escHashGo_id _ h

theorem escLeading_id {x : Char} {l : List Char}
    (h : (l.dropWhile isWS).head? ≠ some x) : escLeading x l = l := by
  unfold escLeading
  split
  · rename_i c rest heq
    rw [heq] at h
    simp only [List.head?_cons, ne_eq, Option.some.injEq] at h
    simp [h]
  · rfl

theorem escImageGo_id (fuel : Nat) {l : List Char} (h : '[' ∉ l) :
    escImageGo fuel l = l := by
  induction fuel generalizing l with
  | zero => rfl
  | succ fuel ih =>
      match l with
      | [] => rfl
      | [c] => rfl
      | c :: d :: rest =>
          simp only [List.mem_cons, not_or] at h
          have hd : (d = '[') = False := by simp [Ne.symm h.2.1]
          have hrec : '[' ∉ (d :: rest) := by
            simp only [List.mem_cons, not_or]
            exact ⟨h.2.1, h.2.2⟩
          simp [escImageGo, hd, ih hrec]

theorem escImage_id {l : List Char} (h : '[' ∉ l) : escImage l = l :=
  escImageGo_id _ h

theorem escLinkGo_id (fuel : Nat) {l : List Char} (h : '[' ∉ l) :
    escLinkGo fuel l = l := by
  induction fuel generalizing l with
  | zero => rfl
  | succ fuel ih =>
      match l with
      | [] => rfl
      | c :: rest =>
          simp only [List.mem_cons, not_or] at h
          simp [escLinkGo, Ne.symm h.1, ih h.2]

theorem escLink_id {l : List Char} (h : '[' ∉ l) : escLink l = l :=
  escLinkGo_id _ h

theorem escCatchAll_id {l : List Char} (h : ∀ c ∈ l, isCatchAll c = false) :
    escCatchAll l = l := by
  induction l with
  | nil => rfl
  | cons c rest ih =>
      have hc := h c (by simp)
      simp [escCatchAll, hc, ih (fun d hd => h d (by simp [hd]))]

/-! The backslash-placement invariant.  `SlashOk T l` says that every
backslash in `l` is immediately followed by a character of the escapee
set `T` (in particular `l` does not end in a backslash).  Each escaping
pass only ever inserts a backslash directly in front of the character it
escapes, so the passes map `SlashOk T` into `SlashOk T'` for a slightly
larger escapee set `T'`; from the final set one can read off which
characters can possibly follow a backslash in the escaped text. -/

/-- The relation between adjacent characters underlying `SlashOk`. -/
def BSlash (T : List Char) (x y : Char) : Prop := x = '\\' → y ∈ T

/-- Every backslash of `l` is immediately followed by a character in `T`. -/
def SlashOk (T : List Char) (l : List Char) : Prop :=
  List.Chain' (BSlash T) l ∧ l.getLast? ≠ some '\\'

theorem slashOk_nil {T : List Char} : SlashOk T [] := ⟨List.chain'_nil, by simp⟩

theorem slashOk_singleton {T : List Char} {c : Char} (h : c ≠ '\\') : SlashOk T [c] :=
  ⟨List.chain'_singleton c, by simp [h]⟩

theorem slashOk_tail {T : List Char} {c : Char} {l : List Char}
    (h : SlashOk T (c :: l)) : SlashOk T l := by
  refine ⟨h.1.tail, ?_⟩
  cases l with
  | nil => simp
  | cons d t => simpa [List.getLast?_cons_cons] using h.2

theorem slashOk_cons_iff {T : List Char} {c : Char} {l : List Char} (h : c ≠ '\\') :
    SlashOk T (c :: l) ↔ SlashOk T l := by
  constructor
  · exact slashOk_tail
  · rintro ⟨h1, h2⟩
    refine ⟨List.chain'_cons'.mpr ⟨fun y _ hc => absurd hc h, h1⟩, ?_⟩
    cases l with
    | nil => simp [h]
    | cons d t => simpa [List.getLast?_cons_cons] using h2

theorem slashOk_slash_cons_iff {T : List Char} {d : Char} {l : List Char} :
    SlashOk T ('\\' :: d :: l) ↔ d ∈ T ∧ SlashOk T (d :: l) := by
  constructor
  · rintro ⟨h1, h2⟩
    rw [List.chain'_cons] at h1
    exact ⟨h1.1 rfl, h1.2, by simpa [List.getLast?_cons_cons] using h2⟩
  · rintro ⟨hd, h1, h2⟩
    exact ⟨List.chain'_cons.mpr ⟨fun _ => hd, h1⟩,
      by simpa [List.getLast?_cons_cons] using h2⟩

theorem slashOk_not_single_slash {T : List Char} : ¬ SlashOk T ['\\'] :=
  fun h => h.2 (by simp)

theorem slashOk_append {T : List Char} {a b : List Char}
    (h1 : SlashOk T a) (h2 : SlashOk T b) : SlashOk T (a ++ b) := by
  constructor
  · refine List.chain'_append.mpr ⟨h1.1, h2.1, ?_⟩
    intro x hx y _ hxs
    exact absurd (hxs ▸ hx) h1.2
  · cases b with
    | nil => simpa using h1.2
    | cons d t =>
        rw [List.getLast?_append_cons]
        exact h2.2

theorem slashOk_weaken {T T' : List Char} {l : List Char}
    (hT : ∀ c ∈ T, c ∈ T') (h : SlashOk T l) : SlashOk T' l :=
  ⟨h.1.imp (fun _ _ hxy hx => hT _ (hxy hx)), h.2⟩

theorem slashOk_split {T : List Char} {d : Char} {a m : List Char}
    (hd : d ∉ T) (h : SlashOk T (a ++ d :: m)) :
    SlashOk T a ∧ SlashOk T (d :: m) := by
  induction a with
  | nil => exact ⟨slashOk_nil, h⟩
  | cons c a' ih =>
      have htail := slashOk_tail (c := c) (by simpa using h)
      obtain ⟨ha', hdm⟩ := ih htail
      by_cases hc : c = '\\'
      · subst hc
        have hhead : ∀ y ∈ (a' ++ d :: m).head?, BSlash T '\\' y := by
          have := h.1
          rw [List.cons_append, List.chain'_cons'] at this
          exact this.1
        cases a' with
        | nil =>
            exact absurd (hhead d (by simp) rfl) hd
        | cons e t =>
            have he : e ∈ T := hhead e (by simp) rfl
            exact ⟨slashOk_slash_cons_iff.mpr ⟨he, ha'⟩, hdm⟩
      · exact ⟨(slashOk_cons_iff hc).mpr ha', hdm⟩

/-- From the invariant, a pattern `"\\x"` with `x` outside the escapee
set cannot occur. -/
theorem slashOk_no_seq {T : List Char} {x : Char} {l : List Char}
    (h : SlashOk T l) (hx : x ∉ T) : containsSeq ['\\', x] l = false := by
  induction l with
  | nil => rfl
  | cons c rest ih =>
      rw [containsSeq]
      rw [Bool.or_eq_false_iff]
      refine ⟨?_, ih (slashOk_tail h)⟩
      cases rest with
      | nil => simp [List.isPrefixOf]
      | cons d t =>
          by_cases hc : c = '\\'
          · subst hc
            by_cases hdx : d = x
            · subst hdx
              exact absurd (slashOk_slash_cons_iff.mp h).1 hx
            · simp [List.isPrefixOf, Ne.symm hdx]
          · simp [List.isPrefixOf, Ne.symm hc]

theorem slashOk_of_no_slash {T : List Char} {a : List Char} (h : '\\' ∉ a) :
    SlashOk T a := by
  induction a with
  | nil => exact slashOk_nil
  | cons c rest ih =>
      simp only [List.mem_cons, not_or] at h
      exact (slashOk_cons_iff (Ne.symm h.1)).mpr (ih h.2)

theorem slashOk_suffix {T : List Char} {a b : List Char}
    (h : SlashOk T (a ++ b)) : SlashOk T b := by
  induction a with
  | nil => exact h
  | cons c rest ih => exact ih (slashOk_tail (by simpa using h))

/-! Preservation lemmas: every pass inserts backslashes only directly in
front of the character class it escapes, so it maps `SlashOk T` into
`SlashOk` of the enlarged escapee set. -/

theorem escLeadingPeriod_slashOk {T : List Char} {l : List Char}
    (h : SlashOk T l) : SlashOk ('.' :: T) (escLeadingPeriod l) := by
  unfold escLeadingPeriod
  dsimp only
  split
  · rename_i c w' rest heq1 heq2
    have hws : '\\' ∉ l.takeWhile isWS := by
      intro hmem
      have := List.mem_takeWhile_imp hmem
      simp [isWS] at this
    have hw : '\\' ∉ (l.dropWhile isWS).takeWhile isWordChar := by
      intro hmem
      have := List.mem_takeWhile_imp hmem
      simp [isWordChar] at this
    have hl : l = l.takeWhile isWS ++ ((l.dropWhile isWS).takeWhile isWordChar ++ '.' :: rest) := by
      rw [← heq2, List.takeWhile_append_dropWhile, List.takeWhile_append_dropWhile]
    rw [hl] at h
    have hdot : SlashOk T ('.' :: rest) := slashOk_suffix (slashOk_suffix h)
    refine slashOk_append (slashOk_append (slashOk_of_no_slash hws) (slashOk_of_no_slash hw)) ?_
    rw [slashOk_slash_cons_iff]
    refine ⟨by simp, ?_⟩
    exact slashOk_weaken (fun x hx => by simp [hx]) hdot
  · exact slashOk_weaken (fun x hx => by simp [hx]) h

theorem escHashGo_head (fuel : Nat) {d : Char} (r : List Char) (hd : d ≠ '#') :
    ∃ t, escHashGo fuel (d :: r) = d :: t := by
  cases fuel with
  | zero => exact ⟨r, rfl⟩
  | succ fuel =>
      cases r with
      | nil => exact ⟨[], rfl⟩
      | cons e r' => exact ⟨escHashGo fuel (e :: r'), by simp [escHashGo, hd]⟩

theorem escHashGo_slashOk (fuel : Nat) {T : List Char} {l : List Char}
    (h : SlashOk T l) (hT : '#' ∉ T) : SlashOk ('#' :: T) (escHashGo fuel l) := by
  induction fuel generalizing l with
  | zero => exact slashOk_weaken (fun x hx => by simp [hx]) h
  | succ fuel ih =>
      match l with
      | [] => exact slashOk_nil
      | [c] => exact slashOk_weaken (fun x hx => by simp [hx]) h
      | c :: d :: rest =>
          show SlashOk _ (if c = '#' && isWS d then _ else _)
          by_cases hcd : c = '#' && isWS d
          · rw [if_pos hcd]
            simp only [Bool.and_eq_true, decide_eq_true_eq] at hcd
            have hdns : d ≠ '\\' := by
              intro hd
              rw [hd] at hcd
              simp [isWS] at hcd
            have hrest : SlashOk T rest := slashOk_tail (slashOk_tail h)
            rw [slashOk_slash_cons_iff]
            refine ⟨by simp, ?_⟩
            rw [slashOk_cons_iff (by decide)]
            rw [slashOk_cons_iff hdns]
            exact ih hrest
          · rw [if_neg hcd]
            by_cases hc : c = '\\'
            · subst hc
              have hmem := slashOk_slash_cons_iff.mp h
              have hd : d ≠ '#' := fun hdeq => hT (hdeq ▸ hmem.1)
              obtain ⟨t, ht⟩ := escHashGo_head fuel rest hd
              rw [ht]
              rw [slashOk_slash_cons_iff]
              refine ⟨by simp [hmem.1], ?_⟩
              rw [← ht]
              exact ih hmem.2
            · rw [slashOk_cons_iff hc]
              exact ih (slashOk_tail h)

theorem escLeading_slashOk {T : List Char} {x : Char} {l : List Char}
    (hx : x ≠ '\\') (h : SlashOk T l) : SlashOk (x :: T) (escLeading x l) := by
  unfold escLeading
  dsimp only
  split
  · rename_i c rest heq
    by_cases hc : c = x
    · rw [if_pos hc]
      subst hc
      have hws : '\\' ∉ l.takeWhile isWS := by
        intro hmem
        have := List.mem_takeWhile_imp hmem
        simp [isWS] at this
      have hcr : SlashOk T (c :: rest) := by
        rw [← heq]
        have hl : l = l.takeWhile isWS ++ l.dropWhile isWS :=
          (List.takeWhile_append_dropWhile (p := isWS) (l := l)).symm
        exact slashOk_suffix (hl ▸ h)
      refine slashOk_append (slashOk_of_no_slash hws) ?_
      rw [slashOk_slash_cons_iff]
      exact ⟨by simp, slashOk_weaken (fun y hy => by simp [hy]) hcr⟩
    · rw [if_neg hc]
      exact slashOk_weaken (fun y hy => by simp [hy]) h
  · exact slashOk_weaken (fun y hy => by simp [hy]) h

theorem innerMatch_split {t A B C : List Char}
    (h : innerMatch t = some (A, B, C)) :
    t = A ++ (']' :: '(' :: (B ++ (')' :: C))) := by
  unfold innerMatch at h
  simp only at h
  split at h
  · exact absurd h (by simp)
  · rename_i k hk
    split at h
    · exact absurd h (by simp)
    · rename_i m hm
      simp only [Option.some.injEq, Prod.mk.injEq] at h
      obtain ⟨hA, hB, hC⟩ := h
      have hkmem := List.max?_mem (fun a b => max_choice a b) hk
      rw [List.mem_filter] at hkmem
      obtain ⟨hkrange, hkpred⟩ := hkmem
      simp only [Bool.and_eq_true, decide_eq_true_eq] at hkpred
      obtain ⟨⟨⟨-, hk1⟩, hk2⟩, -⟩ := hkpred
      have hklt : k < t.length := by simpa using hkrange
      have hk1lt : k + 1 < t.length := by
        by_contra hcon
        rw [List.getD_eq_default _ _ (by omega)] at hk2
        exact absurd hk2 (by decide)
      have hmmem := List.max?_mem (fun a b => max_choice a b) hm
      rw [List.mem_filter] at hmmem
      obtain ⟨hmrange, hmpred⟩ := hmmem
      simp only [Bool.and_eq_true, decide_eq_true_eq] at hmpred
      obtain ⟨-, hm1⟩ := hmpred
      have hmlt : m < (t.drop (k + 2)).length := by simpa using hmrange
      have e1 : t = t.take k ++ t.drop k := (List.take_append_drop k t).symm
      have e2 : t.drop k = ']' :: t.drop (k + 1) := by
        rw [List.drop_eq_getElem_cons hklt]
        congr 1
        rw [← List.getD_eq_getElem t ' ' hklt]
        exact hk1
      have e3 : t.drop (k + 1) = '(' :: t.drop (k + 2) := by
        rw [List.drop_eq_getElem_cons hk1lt]
        congr 1
        rw [← List.getD_eq_getElem t ' ' hk1lt]
        exact hk2
      have e4 : t.drop (k + 2) = (t.drop (k + 2)).take m ++ (t.drop (k + 2)).drop m :=
        (List.take_append_drop m _).symm
      have e5 : (t.drop (k + 2)).drop m = ')' :: (t.drop (k + 2)).drop (m + 1) := by
        rw [List.drop_eq_getElem_cons hmlt]
        congr 1
        rw [← List.getD_eq_getElem _ ' ' hmlt]
        exact hm1
      subst hA hB hC
      conv_lhs => rw [e1, e2, e3]
      conv_lhs => rw [e4, e5]

theorem escImageGo_head (fuel : Nat) {d : Char} (r : List Char) (hd : d ≠ '!') :
    ∃ t, escImageGo fuel (d :: r) = d :: t := by
  cases fuel with
  | zero => exact ⟨r, rfl⟩
  | succ fuel =>
      cases r with
      | nil => exact ⟨[], rfl⟩
      | cons e r' => exact ⟨escImageGo fuel (e :: r'), by simp [escImageGo, hd]⟩

theorem escImageGo_slashOk (fuel : Nat) {T : List Char} {l : List Char}
    (h : SlashOk T l) (hbang : '!' ∉ T) (hrb : ']' ∉ T) (hrp : ')' ∉ T) :
    SlashOk ('!' :: T) (escImageGo fuel l) := by
  induction fuel generalizing l with
  | zero => exact slashOk_weaken (fun x hx => by simp [hx]) h
  | succ fuel ih =>
      match l with
      | [] => exact slashOk_nil
      | [c] => exact slashOk_weaken (fun x hx => by simp [hx]) h
      | c :: d :: rest =>
          show SlashOk _ (if c = '!' && d = '[' then _ else _)
          by_cases hcd : c = '!' && d = '['
          · rw [if_pos hcd]
            simp only [Bool.and_eq_true, decide_eq_true_eq] at hcd
            obtain ⟨hc, hd⟩ := hcd
            subst hc; subst hd
            cases him : innerMatch rest with
            | none =>
                rw [slashOk_cons_iff (by decide)]
                exact ih (slashOk_tail h)
            | some ABC =>
                obtain ⟨A, B, C⟩ := ABC
                have hsplit := innerMatch_split him
                have hrest : SlashOk T rest := slashOk_tail (slashOk_tail h)
                rw [hsplit] at hrest
                have h1 := slashOk_split hrb hrest
                have h2 : SlashOk T (B ++ (')' :: C)) :=
                  slashOk_tail (slashOk_tail h1.2)
                have h3 := slashOk_split hrp h2
                have hC : SlashOk T C := slashOk_tail h3.2
                have hout := ih hC
                rw [slashOk_slash_cons_iff]
                refine ⟨by simp, ?_⟩
                rw [slashOk_cons_iff (by decide)]
                rw [slashOk_cons_iff (by decide)]
                refine slashOk_append
                  (slashOk_append (slashOk_weaken (fun x hx => by simp [hx]) h1.1) ?_) ?_
                · rw [slashOk_cons_iff (by decide)]
                  rw [slashOk_cons_iff (by decide)]
                  exact slashOk_weaken (fun x hx => by simp [hx]) h3.1
                · rw [slashOk_cons_iff (by decide)]
                  exact hout
          · rw [if_neg hcd]
            by_cases hc : c = '\\'
            · subst hc
              have hmem := slashOk_slash_cons_iff.mp h
              have hd : d ≠ '!' := fun hdeq => hbang (hdeq ▸ hmem.1)
              obtain ⟨t, ht⟩ := escImageGo_head fuel rest hd
              rw [ht]
              rw [slashOk_slash_cons_iff]
              refine ⟨by simp [hmem.1], ?_⟩
              rw [← ht]
              exact ih hmem.2
            · rw [slashOk_cons_iff hc]
              exact ih (slashOk_tail h)

theorem escLinkGo_head (fuel : Nat) {d : Char} (r : List Char) (hd : d ≠ '[') :
    ∃ t, escLinkGo fuel (d :: r) = d :: t := by
  cases fuel with
  | zero => exact ⟨r, rfl⟩
  | succ fuel => exact ⟨escLinkGo fuel r, by simp [escLinkGo, hd]⟩

theorem escLinkGo_slashOk (fuel : Nat) {T : List Char} {l : List Char}
    (h : SlashOk T l) (hlb : '[' ∉ T) (hrb : ']' ∉ T) (hrp : ')' ∉ T) :
    SlashOk ('(' :: ')' :: T) (escLinkGo fuel l) := by
  induction fuel generalizing l with
  | zero => exact slashOk_weaken (fun x hx => by simp [hx]) h
  | succ fuel ih =>
      match l with
      | [] => exact slashOk_nil
      | c :: rest =>
          show SlashOk _ (if c = '[' then _ else _)
          by_cases hc : c = '['
          · rw [if_pos hc]
            subst hc
            cases him : innerMatch rest with
            | none =>
                rw [slashOk_cons_iff (by decide)]
                exact ih (slashOk_tail h)
            | some ABC =>
                obtain ⟨A, B, C⟩ := ABC
                have hsplit := innerMatch_split him
                have hrest : SlashOk T rest := slashOk_tail h
                rw [hsplit] at hrest
                have h1 := slashOk_split hrb hrest
                have h2 : SlashOk T (B ++ (')' :: C)) :=
                  slashOk_tail (slashOk_tail h1.2)
                have h3 := slashOk_split hrp h2
                have hC : SlashOk T C := slashOk_tail h3.2
                have hout := ih hC
                rw [slashOk_cons_iff (by decide)]
                refine slashOk_append
                  (slashOk_append (slashOk_weaken (fun x hx => by simp [hx]) h1.1) ?_) ?_
                · rw [slashOk_cons_iff (by decide)]
                  rw [slashOk_slash_cons_iff]
                  refine ⟨by simp, ?_⟩
                  rw [slashOk_cons_iff (by decide)]
                  exact slashOk_weaken (fun x hx => by simp [hx]) h3.1
                · rw [slashOk_slash_cons_iff]
                  refine ⟨by simp, ?_⟩
                  rw [slashOk_cons_iff (by decide)]
                  exact hout
          · rw [if_neg hc]
            by_cases hcs : c = '\\'
            · subst hcs
              cases rest with
              | nil => exact absurd h slashOk_not_single_slash
              | cons d rest' =>
                  have hmem := slashOk_slash_cons_iff.mp h
                  have hd : d ≠ '[' := fun hdeq => hlb (hdeq ▸ hmem.1)
                  obtain ⟨t, ht⟩ := escLinkGo_head fuel rest' hd
                  rw [ht]
                  rw [slashOk_slash_cons_iff]
                  refine ⟨by simp [hmem.1], ?_⟩
                  rw [← ht]
                  exact ih hmem.2
            · rw [slashOk_cons_iff hcs]
              exact ih (slashOk_tail h)

/-- The characters of the catch-all class, as a list. -/
def catchChars : List Char := ['\x60', '*', '\x7b', '\x7d', '[', ']', '_']

theorem isCatchAll_iff_mem {c : Char} : isCatchAll c = true ↔ c ∈ catchChars := by
  simp only [isCatchAll, catchChars, Bool.or_eq_true, decide_eq_true_eq, List.mem_cons,
    List.not_mem_nil, or_false]
  tauto

theorem escCatchAll_slashOk {T : List Char} {l : List Char}
    (h : SlashOk T l) (hT : ∀ c ∈ T, isCatchAll c = false) :
    SlashOk (catchChars ++ T) (escCatchAll l) := by
  induction l with
  | nil => exact slashOk_nil
  | cons c rest ih =>
      show SlashOk _ (if isCatchAll c then _ else _)
      by_cases hcc : isCatchAll c
      · rw [if_pos hcc]
        have hcmem : c ∈ catchChars := isCatchAll_iff_mem.mp hcc
        have hcs : c ≠ '\\' := by
          intro hcon
          rw [hcon] at hcmem
          simp [catchChars] at hcmem
        rw [slashOk_slash_cons_iff]
        refine ⟨by simp [hcmem], ?_⟩
        rw [slashOk_cons_iff hcs]
        exact ih (slashOk_tail h)
      · rw [if_neg hcc]
        by_cases hc : c = '\\'
        · subst hc
          cases rest with
          | nil => exact absurd h slashOk_not_single_slash
          | cons d rest' =>
              have hmem := slashOk_slash_cons_iff.mp h
              have hdnc : isCatchAll d = false := hT d hmem.1
              have hstep : escCatchAll (d :: rest') = d :: escCatchAll rest' := by
                simp [escCatchAll, hdnc]
              rw [hstep]
              rw [slashOk_slash_cons_iff]
              refine ⟨by simp [hmem.1], ?_⟩
              rw [← hstep]
              exact ih hmem.2
        · rw [slashOk_cons_iff hc]
          exact ih (slashOk_tail h)

/-! The `#`-before-whitespace pattern, as a chain relation, together with
the fact that pass 2 cannot create such a pattern (it only inserts a
backslash before a period). -/

/-- Adjacent-character relation: a `#` is never followed by whitespace. -/
def HashR (x y : Char) : Prop := x = '#' → isWS y = false

theorem hasHashWS_false_iff {l : List Char} :
    hasHashWS l = false ↔ List.Chain' HashR l := by
  induction l with
  | nil => simp [hasHashWS]
  | cons c rest ih =>
      cases rest with
      | nil => simp [hasHashWS, List.chain'_singleton]
      | cons d t =>
          rw [hasHashWS_cons₂, List.chain'_cons, ← ih]
          simp only [Bool.or_eq_false_iff, Bool.and_eq_false_iff, decide_eq_false_iff_not,
            HashR]
          tauto

theorem hashR_any_slash (x : Char) : HashR x '\\' := fun _ => by decide

theorem escLeadingPeriod_hashOk {l : List Char} (h : hasHashWS l = false) :
    hasHashWS (escLeadingPeriod l) = false := by
  rw [hasHashWS_false_iff] at h ⊢
  unfold escLeadingPeriod
  dsimp only
  split
  · rename_i c w' rest heq1 heq2
    have hl : l = l.takeWhile isWS ++ ((l.dropWhile isWS).takeWhile isWordChar ++ '.' :: rest) := by
      rw [← heq2, List.takeWhile_append_dropWhile, List.takeWhile_append_dropWhile]
    rw [hl] at h
    rw [List.chain'_append] at h
    obtain ⟨hws, hrest, hbd1⟩ := h
    rw [List.chain'_append] at hrest
    obtain ⟨hw, hdot, hbd2⟩ := hrest
    rw [List.chain'_append]
    refine ⟨?_, ?_, ?_⟩
    · rw [List.chain'_append]
      refine ⟨hws, hw, ?_⟩
      intro x hx y hy
      apply hbd1 x hx
      cases hw' : (l.dropWhile isWS).takeWhile isWordChar with
      | nil => rw [hw'] at hy; simp at hy
      | cons a b =>
          rw [hw'] at hy
          simpa using hy
    · rw [List.chain'_cons]
      exact ⟨fun h => absurd h (by decide), hdot⟩
    · intro x _ y hy
      simp only [List.head?_cons, Option.mem_def, Option.some.injEq] at hy
      subst hy
      exact hashR_any_slash x
  · exact h

/-! Character-content lemmas: every pass only ever adds backslashes, so a
character other than the backslash that is absent from the input remains
absent from the output. -/

theorem escLeadingPeriod_mem {x : Char} {l : List Char}
    (h : x ∈ escLeadingPeriod l) : x ∈ l ∨ x = '\\' := by
  unfold escLeadingPeriod at h
  dsimp only at h
  split at h
  · rename_i c w' rest heq1 heq2
    simp only [List.mem_append, List.mem_cons] at h
    rcases h with (h | h) | h
    · exact Or.inl ((List.takeWhile_sublist _).subset h)
    · exact Or.inl ((List.dropWhile_sublist _).subset ((List.takeWhile_sublist _).subset h))
    · rcases h with h | h | h
      · exact Or.inr h
      · refine Or.inl ?_
        have : x ∈ '.' :: rest := by simp [h]
        rw [← heq2] at this
        exact (List.dropWhile_sublist _).subset ((List.dropWhile_sublist _).subset this)
      · refine Or.inl ?_
        have : x ∈ '.' :: rest := by simp [h]
        rw [← heq2] at this
        exact (List.dropWhile_sublist _).subset ((List.dropWhile_sublist _).subset this)
  · exact Or.inl h

theorem escHashGo_mem (fuel : Nat) {x : Char} {l : List Char}
    (h : x ∈ escHashGo fuel l) : x ∈ l ∨ x = '\\' := by
  induction fuel generalizing l with
  | zero => exact Or.inl h
  | succ fuel ih =>
      match l with
      | [] => exact Or.inl h
      | [c] => exact Or.inl h
      | c :: d :: rest =>
          revert h
          show x ∈ (if c = '#' && isWS d then _ else _) → _
          by_cases hcd : c = '#' && isWS d
          · rw [if_pos hcd]
            simp only [Bool.and_eq_true, decide_eq_true_eq] at hcd
            intro h
            simp only [List.mem_cons] at h
            rcases h with h | h | h | h
            · exact Or.inr h
            · exact Or.inl (by simp [h, hcd.1])
            · exact Or.inl (by simp [h])
            · rcases ih h with h' | h'
              · exact Or.inl (by simp [h'])
              · exact Or.inr h'
          · rw [if_neg hcd]
            intro h
            simp only [List.mem_cons] at h
            rcases h with h | h
            · exact Or.inl (by simp [h])
            · rcases ih h with h' | h'
              · exact Or.inl (List.mem_cons_of_mem c h')
              · exact Or.inr h'

theorem escLeading_mem {x y : Char} {l : List Char}
    (h : x ∈ escLeading y l) : x ∈ l ∨ x = '\\' := by
  unfold escLeading at h
  dsimp only at h
  split at h
  · rename_i c rest heq
    by_cases hc : c = y
    · rw [if_pos hc] at h
      simp only [List.mem_append, List.mem_cons] at h
      rcases h with h | h | h | h
      · exact Or.inl ((List.takeWhile_sublist _).subset h)
      · exact Or.inr h
      · refine Or.inl ?_
        have : x ∈ c :: rest := by simp [h]
        rw [← heq] at this
        exact (List.dropWhile_sublist _).subset this
      · refine Or.inl ?_
        have : x ∈ c :: rest := by simp [h]
        rw [← heq] at this
        exact (List.dropWhile_sublist _).subset this
    · rw [if_neg hc] at h
      exact Or.inl h
  · exact Or.inl h

/-- Claim C8: `escape` is not idempotent — there is a string `t` (for
example one containing the metacharacter `*`) with
`escape (escape t) ≠ escape t`, because re-escaping doubles the inserted
backslashes. -/
theorem claim_C8 :
    ∃ t : List Char,
      escapeMarkdownChars (escapeMarkdownChars t) ≠ escapeMarkdownChars t :=
  ⟨str "*", by decide⟩

/-- Claim C9: `escape` is the identity on inert text — any string with no
backslash, none of the catch-all characters `` ` * { } [ ] _ ``, no `#`
followed by whitespace, not beginning (after optional leading whitespace)
with a word run followed by a period, nor with `>`, `-` or `+`, is
returned unchanged; in particular plain URLs and HTML fragments pass
through untouched. -/
theorem claim_C9 (l : List Char)
    (h1 : '\\' ∉ l)
    (h2 : ∀ c ∈ l, isCatchAll c = false)
    (h3 : hasHashWS l = false)
    (h4 : startsWordPeriod l = false)
    (h5 : ∀ c, (l.dropWhile isWS).head? = some c → c ≠ '>' ∧ c ≠ '-' ∧ c ≠ '+') :
    escapeMarkdownChars l = l := by
  have hbr : '[' ∉ l := fun hin => absurd (h2 '[' hin) (by decide)
  have hgt : (l.dropWhile isWS).head? ≠ some '>' := fun heq => (h5 _ heq).1 rfl
  have hmn : (l.dropWhile isWS).head? ≠ some '-' := fun heq => (h5 _ heq).2.1 rfl
  have hpl : (l.dropWhile isWS).head? ≠ some '+' := fun heq => (h5 _ heq).2.2 rfl
  unfold escapeMarkdownChars
  rw [escBackslash_id h1, escLeadingPeriod_id h4, escHash_id h3, escLeading_id hgt,
    escLeading_id hmn, escLeading_id hpl, escImage_id hbr, escLink_id hbr,
    escCatchAll_id h2]

/-- Witness for C9 at the two literal inputs of the repository's own
tests: a URL and an HTML fragment pass through `escape` unchanged. -/
theorem claim_C9_witness :
    escapeMarkdownChars (str "https://github.com/slate-md-serializer")
        = str "https://github.com/slate-md-serializer"
      ∧ escapeMarkdownChars (str "<br>") = str "<br>" :=
  ⟨claim_C9 (str "https://github.com/slate-md-serializer")
      (by decide) (by decide) (by decide) (by decide) (by decide),
   claim_C9 (str "<br>") (by decide) (by decide) (by decide) (by decide) (by decide)⟩

/-- Claim C6: `escape` never places a backslash in front of an
exclamation point except as the leading `!` of an image construct, and
never in front of a `#` that is not followed by whitespace.  On
backslash-free input without `[` (hence without any image construct) the
output contains no `"\\!"` at all; on backslash-free input with no
`#`-before-whitespace the output contains no `"\\#"`.  Consequently
hashtags such as `#hashtag` and a bare `!` pass through unchanged, a `#`
followed by whitespace is escaped, and the `!` of an actual image
construct is escaped. -/
theorem claim_C6 (s : List Char) :
    (('\\' ∉ s ∧ '[' ∉ s) →
        containsSeq ['\\', '!'] (escapeMarkdownChars s) = false)
  ∧ (('\\' ∉ s ∧ hasHashWS s = false) →
        containsSeq ['\\', '#'] (escapeMarkdownChars s) = false)
  ∧ escapeMarkdownChars (str "this is a #hashtag") = str "this is a #hashtag"
  ∧ escapeMarkdownChars (str "do not escape!") = str "do not escape!"
  ∧ escapeMarkdownChars (str "this not a # hashtag") = str "this not a \\# hashtag"
  ∧ escapeMarkdownChars (str "this is ![not](an image)")
      = str "this is \\!\\[not\\]\\(an image\\)" := by
  refine ⟨?_, ?_, by decide, by decide, by decide, by decide⟩
  · rintro ⟨hns, hnb⟩
    have s0 : SlashOk [] s := slashOk_of_no_slash hns
    have s2 : SlashOk ['.'] (escLeadingPeriod s) := escLeadingPeriod_slashOk s0
    have s3 : SlashOk ('#' :: ['.']) (escHash (escLeadingPeriod s)) :=
      escHashGo_slashOk _ s2 (by decide)
    have s4 := escLeading_slashOk (x := '>') (by decide) s3
    have s5 := escLeading_slashOk (x := '-') (by decide) s4
    have s6 := escLeading_slashOk (x := '+') (by decide) s5
    have b2 : '[' ∉ escLeadingPeriod s := fun hm => by
      rcases escLeadingPeriod_mem hm with h | h
      · exact hnb h
      · exact absurd h (by decide)
    have b3 : '[' ∉ escHash (escLeadingPeriod s) := fun hm => by
      rcases escHashGo_mem _ hm with h | h
      · exact b2 h
      · exact absurd h (by decide)
    have b4 : '[' ∉ escLeading '>' (escHash (escLeadingPeriod s)) := fun hm => by
      rcases escLeading_mem hm with h | h
      · exact b3 h
      · exact absurd h (by decide)
    have b5 : '[' ∉ escLeading '-' (escLeading '>' (escHash (escLeadingPeriod s))) :=
      fun hm => by
        rcases escLeading_mem hm with h | h
        · exact b4 h
        · exact absurd h (by decide)
    have b6 : '[' ∉ escLeading '+'
        (escLeading '-' (escLeading '>' (escHash (escLeadingPeriod s)))) := fun hm => by
      rcases escLeading_mem hm with h | h
      · exact b5 h
      · exact absurd h (by decide)
    have s9 := escCatchAll_slashOk s6 (by decide)
    unfold escapeMarkdownChars
    rw [escBackslash_id hns, escImage_id b6, escLink_id b6]
    exact slashOk_no_seq s9 (by decide)
  · rintro ⟨hns, hnh⟩
    have s0 : SlashOk [] s := slashOk_of_no_slash hns
    have s2 : SlashOk ['.'] (escLeadingPeriod s) := escLeadingPeriod_slashOk s0
    have e3 : escHash (escLeadingPeriod s) = escLeadingPeriod s :=
      escHash_id (escLeadingPeriod_hashOk hnh)
    have s4 := escLeading_slashOk (x := '>') (by decide) s2
    have s5 := escLeading_slashOk (x := '-') (by decide) s4
    have s6 := escLeading_slashOk (x := '+') (by decide) s5
    have s7 := escImageGo_slashOk (T := ['+', '-', '>', '.'])
      ((escLeading '+' (escLeading '-' (escLeading '>' (escLeadingPeriod s)))).length)
      s6 (by decide) (by decide) (by decide)
    have s8 := escLinkGo_slashOk (T := '!' :: ['+', '-', '>', '.'])
      ((escImage (escLeading '+' (escLeading '-' (escLeading '>'
        (escLeadingPeriod s))))).length)
      s7 (by decide) (by decide) (by decide)
    have s9 := escCatchAll_slashOk s8 (by decide)
    unfold escapeMarkdownChars
    rw [escBackslash_id hns, e3]
    exact slashOk_no_seq s9 (by decide)

/-- Witness for C6 instantiating both universally quantified conjuncts at
concrete inputs. -/
theorem claim_C6_witness :
    containsSeq ['\\', '!']
        (escapeMarkdownChars (str "a #tag and a bang! here")) = false
  ∧ containsSeq ['\\', '#'] (escapeMarkdownChars (str "#tag [x](y)")) = false :=
  ⟨((claim_C6 (str "a #tag and a bang! here")).1 ⟨by decide, by decide⟩),
   ((claim_C6 (str "#tag [x](y)")).2.1 ⟨by decide, by decide⟩)⟩

end MdEscape

/-! Shared data model for the renderers: the six mark types handled by the
mark rules, and a text leaf (a literal string plus its marks). -/

/-- The mark types of the `RULES` mark rule (`bold`, `italic`, `code`,
`inserted`, `deleted`, `underlined`). -/
inductive MType where
  | bold
  | italic
  | code
  | inserted
  | deleted
  | underlined
deriving DecidableEq, Repr

/-- A text leaf: a literal text string together with its list of marks. -/
structure MLeaf where
  text : List Char
  marks : List MType
deriving DecidableEq, Repr

instance : Inhabited MLeaf := ⟨⟨[], []⟩⟩

namespace RendererJs

open MdEscape

/-- The mark rule of `src/renderer.js` (`RULES`, the `obj.object ===
'mark'` rule): `bold` and `italic` consult the `open` / `close` flags;
`code`, `inserted`, `deleted` and `underlined` always emit both
delimiters.  The guard `if (!children) return` makes the rule yield
`undefined` (collapsed to `[]`) on empty children. -/
def markRule (m : MType) (children : List Char) (openF closeF : Bool) : List Char :=
  if children = [] then []
  else
    match m with
    | .bold =>
        (if openF then str "**" else []) ++ children ++ (if closeF then str "**" else [])
    | .italic =>
        (if openF then str "_" else []) ++ children ++ (if closeF then str "_" else [])
    | .code => str "`" ++ children ++ str "`"
    | .inserted => str "++" ++ children ++ str "++"
    | .deleted => str "~~" ++ children ++ str "~~"
    | .underlined => str "__" ++ children ++ str "__"

/-- The `prevNodeMarks` / `nextNodeMarks` hash of `serializeLeaves`: in a
run of sibling text leaves, whether the given neighbour exists and
carries the mark (an absent neighbour, `node.nodes.get(-1)` or past the
end, is `undefined` and contributes the empty hash). -/
def carriesOpt (o : Option MLeaf) (m : MType) : Bool :=
  match o with
  | some lf => lf.marks.contains m
  | none => false

/-- Whether `prevNodeMarks` is nonempty (`Object.keys(prevNodeMarks).length`). -/
def prevHasAny (prev : Option MLeaf) : Bool :=
  match prev with
  | some lf => !lf.marks.isEmpty
  | none => false

/-- The sort of `serializeLeaves`: `marks.sort((a, b) => prevHasA -
prevHasB)` with the stable JavaScript sort is a stable partition that
moves the marks carried by the previous leaf after those it does not
carry; it is only applied when `prevNodeMarks` is nonempty. -/
def sortMarks (prev : Option MLeaf) (marks : List MType) : List MType :=
  if prevHasAny prev then
    marks.filter (fun m => !(carriesOpt prev m)) ++ marks.filter (fun m => carriesOpt prev m)
  else marks

/-- `serializeLeaves` of `src/renderer.js`: escape unless suppressed,
then reduce over the (sorted) marks, computing for each mark the
`close` flag from `nextNodeMarks`, the `open` flag from the threaded
`openMarks` object, updating `openMarks[mark.type] =
nextNodeMarks[mark.type]`, and applying the mark rule.  Returns the
rendered leaf and the updated `openMarks`. -/
def serializeLeaves (st : MType → Bool) (lf : MLeaf) (esc : Bool)
    (prev next : Option MLeaf) : List Char × (MType → Bool) :=
  let t := if esc then escapeMarkdownChars lf.text else lf.text
  (sortMarks prev lf.marks).foldl
    (fun acc m =>
      let closeF := !(carriesOpt next m)
      let openF := !(acc.2 m)
      (markRule m acc.1 openF closeF, Function.update acc.2 m (carriesOpt next m)))
    (t, st)

/-- Serializing a run of adjacent sibling text leaves, as `serializeNode`
does for the children of one parent: each leaf is serialized with its
predecessor and successor as `prevNode` / `nextNode`, the `openMarks`
object is threaded through by reference, and the fragments are joined
with the empty separator. -/
def serializeRunFrom (st : MType → Bool) (prev : Option MLeaf) (esc : Bool) :
    List MLeaf → List Char
  | [] => []
  | lf :: rest =>
      let out := serializeLeaves st lf esc prev rest.head?
      out.1 ++ serializeRunFrom out.2 (some lf) esc rest

/-- A whole run, started with the fresh `openMarks = {}` of a top-level
`serializeNode` call. -/
def serializeRun (esc : Bool) (l : List MLeaf) : List Char :=
  serializeRunFrom (fun _ => false) none esc l

/-- The `openMarks` update performed while serializing one leaf. -/
def stepState (st : MType → Bool) (prev : Option MLeaf) (lf : MLeaf)
    (next : Option MLeaf) : MType → Bool :=
  (sortMarks prev lf.marks).foldl
    (fun s m => Function.update s m (carriesOpt next m)) st

/-- The previous sibling of position `i` in a run. -/
def prevOf (l : List MLeaf) (i : Nat) : Option MLeaf :=
  if i = 0 then none else l.get? (i - 1)

/-- The `openMarks` state on entry to leaf `i` of a run (leaf `0` starts
from the empty object). -/
def stateAt (l : List MLeaf) : Nat → (MType → Bool)
  | 0 => fun _ => false
  | i + 1 => stepState (stateAt l i) (prevOf l i) (l.getD i default) (l.get? (i + 1))

/-- Whether leaf `i` of the run carries mark `m`. -/
def carriesAt (l : List MLeaf) (i : Nat) (m : MType) : Bool :=
  (l.getD i default).marks.contains m

/-- Whether the leaf before position `i` exists and carries mark `m`. -/
def prevCarries (l : List MLeaf) (i : Nat) (m : MType) : Bool :=
  decide (0 < i) && carriesAt l (i - 1) m

theorem carriesOpt_get? (l : List MLeaf) (j : Nat) (m : MType) :
    carriesOpt (l.get? j) m = carriesAt l j m := by
  unfold carriesOpt carriesAt
  cases hj : l.get? j with
  | none =>
      have : l.length ≤ j := by
        by_contra hcon
        rw [List.get?_eq_get (by omega)] at hj
        cases hj
      rw [List.getD_eq_default _ _ this]
      rfl
  | some lf =>
      have hlt : j < l.length := by
        by_contra hcon
        rw [List.get?_eq_none.mpr (by omega)] at hj
        cases hj
      rw [List.getD_eq_getElem _ _ hlt]
      rw [List.get?_eq_getElem?] at hj
      rw [List.getElem?_eq_getElem hlt] at hj
      cases hj
      rfl

theorem mem_sortMarks {prev : Option MLeaf} {marks : List MType} {m : MType} :
    m ∈ sortMarks prev marks ↔ m ∈ marks := by
  unfold sortMarks
  split
  · simp only [List.mem_append, List.mem_filter]
    constructor
    · rintro (⟨h, -⟩ | ⟨h, -⟩) <;> exact h
    · intro h
      by_cases hc : carriesOpt prev m
      · exact Or.inr ⟨h, hc⟩
      · exact Or.inl ⟨h, by simp [hc]⟩
  · exact Iff.rfl

theorem foldl_update_eq {α : Type} [DecidableEq α] (f : α → Bool)
    (ms : List α) (st : α → Bool) (m : α) :
    (ms.foldl (fun s x => Function.update s x (f x)) st) m
      = if m ∈ ms then f m else st m := by
  induction ms generalizing st with
  | nil => simp
  | cons x ms ih =>
      rw [List.foldl_cons, ih]
      by_cases hx : m ∈ ms
      · simp [hx]
      · by_cases hmx : m = x
        · subst hmx
          simp [hx, Function.update]
        · simp [hx, hmx, Function.update, hmx]

theorem stepState_eq (st : MType → Bool) (prev : Option MLeaf) (lf : MLeaf)
    (next : Option MLeaf) (m : MType) :
    stepState st prev lf next m
      = if m ∈ lf.marks then carriesOpt next m else st m := by
  unfold stepState
  rw [foldl_update_eq]
  by_cases hm : m ∈ lf.marks
  · simp [hm, mem_sortMarks.mpr hm]
  · have : m ∉ sortMarks prev lf.marks := fun hc => hm (mem_sortMarks.mp hc)
    simp [hm, this]

/-- Invariant of the threaded `openMarks` object: on entry to leaf `i`,
a mark is recorded as open exactly when both leaf `i - 1` and leaf `i`
carry it. -/
theorem stateAt_eq (l : List MLeaf) (i : Nat) (m : MType) :
    stateAt l i m = (prevCarries l i m && carriesAt l i m) := by
  induction i with
  | zero => simp [stateAt, prevCarries]
  | succ i ih =>
      rw [stateAt, stepState_eq, carriesOpt_get?]
      by_cases hm : m ∈ (l.getD i default).marks
      · rw [if_pos hm]
        have hci : carriesAt l i m = true := by
          unfold carriesAt
          simpa using hm
        simp [prevCarries, hci]
      · rw [if_neg hm]
        have hci : carriesAt l i m = false := by
          unfold carriesAt
          simpa using hm
        rw [ih]
        simp [prevCarries, hci]

/-- Applying the mark rules to a leaf where every mark's open flag is
read off one fixed entry state (valid when the marks are duplicate-free,
because serializing one mark only updates that mark's own `openMarks`
slot). -/
def applyMarksFlagged (stm : MType → Bool) (next : Option MLeaf)
    (ms : List MType) (base : List Char) : List Char :=
  ms.foldl (fun acc m => markRule m acc (!(stm m)) (!(carriesOpt next m))) base

theorem applyMarksFlagged_congr {s1 s2 : MType → Bool} {next : Option MLeaf}
    {ms : List MType} {base : List Char} (h : ∀ m ∈ ms, s1 m = s2 m) :
    applyMarksFlagged s1 next ms base = applyMarksFlagged s2 next ms base := by
  induction ms generalizing base with
  | nil => rfl
  | cons m ms ih =>
      unfold applyMarksFlagged at *
      rw [List.foldl_cons, List.foldl_cons, h m (by simp),
        ih (fun m' hm' => h m' (by simp [hm']))]

theorem foldl_pair_snd (next : Option MLeaf) (ms : List MType)
    (p : List Char × (MType → Bool)) :
    (ms.foldl (fun (acc : List Char × (MType → Bool)) m =>
        (markRule m acc.1 (!(acc.2 m)) (!(carriesOpt next m)),
         Function.update acc.2 m (carriesOpt next m))) p).2
      = ms.foldl (fun s m => Function.update s m (carriesOpt next m)) p.2 := by
  induction ms generalizing p with
  | nil => rfl
  | cons m ms ih => rw [List.foldl_cons, List.foldl_cons, ih]

theorem serializeLeaves_snd (st : MType → Bool) (lf : MLeaf) (esc : Bool)
    (prev next : Option MLeaf) :
    (serializeLeaves st lf esc prev next).2 = stepState st prev lf next := by
  unfold serializeLeaves stepState
  exact foldl_pair_snd next (sortMarks prev lf.marks) _

theorem foldl_pair_fst (next : Option MLeaf) (ms : List MType) (hnd : ms.Nodup) :
    ∀ (st : MType → Bool) (base : List Char),
    (ms.foldl (fun (acc : List Char × (MType → Bool)) m =>
        (markRule m acc.1 (!(acc.2 m)) (!(carriesOpt next m)),
         Function.update acc.2 m (carriesOpt next m))) (base, st)).1
      = applyMarksFlagged st next ms base := by
  induction ms with
  | nil => intro st base; rfl
  | cons m ms ih =>
      intro st base
      rw [List.foldl_cons]
      rw [List.nodup_cons] at hnd
      rw [ih hnd.2]
      unfold applyMarksFlagged
      rw [List.foldl_cons]
      exact applyMarksFlagged_congr fun m' hm' => by
        have : m' ≠ m := fun hc => hnd.1 (hc ▸ hm')
        simp [Function.update, this]

theorem sortMarks_nodup {prev : Option MLeaf} {marks : List MType}
    (h : marks.Nodup) : (sortMarks prev marks).Nodup := by
  unfold sortMarks
  split
  · refine List.Nodup.append (h.filter _) (h.filter _) ?_
    intro m hm1 hm2
    rw [List.mem_filter] at hm1 hm2
    rw [hm2.2] at hm1
    simpa using hm1.2
  · exact h

theorem serializeLeaves_fst (st : MType → Bool) (lf : MLeaf) (esc : Bool)
    (prev next : Option MLeaf) (hnd : lf.marks.Nodup) :
    (serializeLeaves st lf esc prev next).1
      = applyMarksFlagged st next (sortMarks prev lf.marks)
          (if esc then escapeMarkdownChars lf.text else lf.text) := by
  unfold serializeLeaves
  exact foldl_pair_fst next _ (sortMarks_nodup hnd) st _

/-- The rendering of leaf `i` of a run, expressed through the entry state
`stateAt l i`. -/
def leafOutIdx (esc : Bool) (l : List MLeaf) (i : Nat) : List Char :=
  applyMarksFlagged (stateAt l i) (l.get? (i + 1))
    (sortMarks (prevOf l i) ((l.getD i default).marks))
    (if esc then escapeMarkdownChars (l.getD i default).text
     else (l.getD i default).text)

theorem serializeRunFrom_spec (esc : Bool) (l : List MLeaf)
    (hnd : ∀ lf ∈ l, lf.marks.Nodup) :
    ∀ (n k : Nat), l.length - k = n → k ≤ l.length →
    serializeRunFrom (stateAt l k) (prevOf l k) esc (l.drop k)
      = ((List.range (l.length - k)).map (fun j => leafOutIdx esc l (k + j))).flatten := by
  intro n
  induction n with
  | zero =>
      intro k hn hk
      have hk' : k = l.length := by omega
      subst hk'
      rw [List.drop_length]
      simp [serializeRunFrom]
  | succ n ih =>
      intro k hn hk
      have hklt : k < l.length := by omega
      have hdrop : l.drop k = l[k] :: l.drop (k + 1) := List.drop_eq_getElem_cons hklt
      rw [hdrop]
      rw [serializeRunFrom]
      have hhead : (l.drop (k + 1)).head? = l.get? (k + 1) := by
        rw [List.head?_drop, List.get?_eq_getElem?]
      have hgetD : l[k] = l.getD k default := by
        rw [List.getD_eq_getElem _ _ hklt]
      have hfst := serializeLeaves_fst (stateAt l k) l[k] esc (prevOf l k)
        ((l.drop (k + 1)).head?) (hnd l[k] (l.getElem_mem _))
      have hsnd := serializeLeaves_snd (stateAt l k) l[k] esc (prevOf l k)
        ((l.drop (k + 1)).head?)
      rw [hfst, hsnd]
      have hstep : stepState (stateAt l k) (prevOf l k) l[k] ((l.drop (k + 1)).head?)
          = stateAt l (k + 1) := by
        rw [hhead, hgetD]
        rfl
      have hprev : (some l[k] : Option MLeaf) = prevOf l (k + 1) := by
        unfold prevOf
        rw [if_neg (by omega)]
        rw [Nat.add_sub_cancel]
        rw [List.get?_eq_getElem?, List.getElem?_eq_getElem hklt]
      rw [hstep, hprev]
      rw [ih (k + 1) (by omega) (by omega)]
      have hrange : l.length - k = (l.length - (k + 1)) + 1 := by omega
      rw [hrange, List.range_succ_eq_map]
      rw [List.map_cons, List.flatten_cons]
      congr 1
      · unfold leafOutIdx
        rw [hhead, hgetD]
        simp
      · rw [List.map_map]
        congr 1
        refine List.map_congr_left fun j hj => ?_
        simp only [Function.comp_apply]
        congr 1
        omega

/-- The run output, indexed: the state threaded through
`serializeLeaves` really is `stateAt`. -/
theorem serializeRun_spec (esc : Bool) (l : List MLeaf)
    (hnd : ∀ lf ∈ l, lf.marks.Nodup) :
    serializeRun esc l
      = ((List.range l.length).map (leafOutIdx esc l)).flatten := by
  have := serializeRunFrom_spec esc l hnd (l.length) 0 (by omega) (by omega)
  simpa [serializeRun, stateAt, prevOf] using this

/-- Claim C2 is false as stated: the adjacency flags are computed for
every mark, but only the `bold` and `italic` cases of the mark rule
consult them — `code`, `inserted`, `deleted` and `underlined` always
emit both delimiters.  Serializing the two adjacent sibling leaves
`"a"` (bold, deleted) and `"b"` (deleted), which share the `deleted`
mark, yields `~~**a**~~~~b~~`: the closing `~~` is emitted although the
following leaf also carries the mark, so the doubled delimiter `~~~~`
appears at the interior boundary. -/
theorem claim_C2_counterexample :
    serializeRun true
        [⟨str "a", [MType.bold, MType.deleted]⟩, ⟨str "b", [MType.deleted]⟩]
      = str "~~**a**~~~~b~~"
  ∧ containsSeq (str "~~~~")
      (serializeRun true
        [⟨str "a", [MType.bold, MType.deleted]⟩, ⟨str "b", [MType.deleted]⟩]) = true
  ∧ carriesAt [⟨str "a", [MType.bold, MType.deleted]⟩, ⟨str "b", [MType.deleted]⟩]
      0 MType.deleted = true
  ∧ carriesAt [⟨str "a", [MType.bold, MType.deleted]⟩, ⟨str "b", [MType.deleted]⟩]
      1 MType.deleted = true := by
  refine ⟨by decide, by decide, by decide, by decide⟩

/-- Claim C2 (amended): in a run of adjacent sibling text leaves with
duplicate-free mark lists, the `open` flag that `serializeLeaves`
computes for a mark carried by leaf `i` is true exactly when the
previous sibling leaf does not also carry the mark, and the `close` flag
is true exactly when the next sibling leaf does not carry it (the run
output is exactly the indexed fold over these flags); the mark rule
honours them for `bold` and `italic` — so those two marks never produce
doubled delimiters at an interior boundary — while `code`, `inserted`,
`deleted` and `underlined` ignore the flags and always emit both
delimiters. -/
theorem claim_C2_amended (l : List MLeaf) (esc : Bool) (i : Nat) (m : MType)
    (hnd : ∀ lf ∈ l, lf.marks.Nodup) (him : m ∈ (l.getD i default).marks) :
    ((!(stateAt l i m)) = !(prevCarries l i m)
      ∧ serializeRun esc l = ((List.range l.length).map (leafOutIdx esc l)).flatten)
  ∧ (∀ s o c, s ≠ [] →
        markRule MType.bold s o c
          = (if o then str "**" else []) ++ s ++ (if c then str "**" else []))
  ∧ (∀ s o c, s ≠ [] →
        markRule MType.italic s o c
          = (if o then str "_" else []) ++ s ++ (if c then str "_" else []))
  ∧ (∀ s o c, s ≠ [] → markRule MType.code s o c = str "`" ++ s ++ str "`")
  ∧ (∀ s o c, s ≠ [] → markRule MType.inserted s o c = str "++" ++ s ++ str "++")
  ∧ (∀ s o c, s ≠ [] → markRule MType.deleted s o c = str "~~" ++ s ++ str "~~")
  ∧ (∀ s o c, s ≠ [] → markRule MType.underlined s o c = str "__" ++ s ++ str "__") := by
  refine ⟨⟨?_, serializeRun_spec esc l hnd⟩, ?_, ?_, ?_, ?_, ?_, ?_⟩
  · rw [stateAt_eq]
    have hci : carriesAt l i m = true := by
      unfold carriesAt
      simpa using him
    simp [hci]
  all_goals intro s o c hs
  all_goals simp [markRule, hs]

/-- Witness for the amended C2 at a concrete run: for the `bold` mark on
the second of two adjacent bold leaves, the open flag is false because
the previous leaf already carries bold. -/
theorem claim_C2_amended_witness :
    ((!(stateAt [⟨str "a", [MType.bold]⟩, ⟨str "b", [MType.bold, MType.italic]⟩]
          1 MType.bold))
        = !(prevCarries [⟨str "a", [MType.bold]⟩, ⟨str "b", [MType.bold, MType.italic]⟩]
          1 MType.bold)
      ∧ serializeRun true [⟨str "a", [MType.bold]⟩, ⟨str "b", [MType.bold, MType.italic]⟩]
          = ((List.range 2).map
              (leafOutIdx true
                [⟨str "a", [MType.bold]⟩, ⟨str "b", [MType.bold, MType.italic]⟩])).flatten)
  ∧ (∀ s o c, s ≠ [] →
        markRule MType.bold s o c
          = (if o then str "**" else []) ++ s ++ (if c then str "**" else []))
  ∧ (∀ s o c, s ≠ [] →
        markRule MType.italic s o c
          = (if o then str "_" else []) ++ s ++ (if c then str "_" else []))
  ∧ (∀ s o c, s ≠ [] → markRule MType.code s o c = str "`" ++ s ++ str "`")
  ∧ (∀ s o c, s ≠ [] → markRule MType.inserted s o c = str "++" ++ s ++ str "++")
  ∧ (∀ s o c, s ≠ [] → markRule MType.deleted s o c = str "~~" ++ s ++ str "~~")
  ∧ (∀ s o c, s ≠ [] → markRule MType.underlined s o c = str "__" ++ s ++ str "__") :=
  claim_C2_amended
    [⟨str "a", [MType.bold]⟩, ⟨str "b", [MType.bold, MType.italic]⟩]
    true 1 MType.bold (by decide) (by decide)

/-! The code-block rules of `src/renderer.js`: both the `code` rule and
the `code-line` rule rewrite every (non-overlapping, leftmost) occurrence
of three backticks in their children via
`children.replace(/```/g, '\\`\\`\\`')`. -/

/-- The scan of `children.replace(/```/g, '\\`\\`\\`')`; `fuel` is the
usual totality device, `fuel = l.length` never runs out. -/
def replaceFenceGo : Nat → List Char → List Char
  | 0, l => l
  | _ + 1, [] => []
  | fuel + 1, c :: rest =>
      match rest with
      | d :: e :: rest' =>
          if c = '\x60' && d = '\x60' && e = '\x60' then
            '\\' :: '\x60' :: '\\' :: '\x60' :: '\\' :: '\x60' :: replaceFenceGo fuel rest'
          else c :: replaceFenceGo fuel rest
      | _ => c :: rest

/-- Replace every occurrence of three backticks by backslash-escaped
ones. -/
def replaceFence (l : List Char) : List Char := replaceFenceGo l.length l

/-- The `code` rule of `src/renderer.js`: fence with optional language
tag, fence-escaped children, closing fence. -/
def codeRule (language : Option (List Char)) (children : List Char) : List Char :=
  str "```" ++ language.getD [] ++ str "\n" ++ replaceFence children ++ str "\n```\n"

/-- The `code-line` rule of `src/renderer.js`. -/
def codeLineRule (children : List Char) : List Char :=
  replaceFence children ++ str "\n"

theorem replaceFenceGo_id (fuel : Nat) {l : List Char}
    (h : MdEscape.containsSeq (str "```") l = false) : replaceFenceGo fuel l = l := by
  induction fuel generalizing l with
  | zero => rfl
  | succ fuel ih =>
      match l with
      | [] => rfl
      | [c] => rfl
      | [c, d] => rfl
      | c :: d :: e :: rest =>
          show (if c = '\x60' && d = '\x60' && e = '\x60' then _ else _) = _
          rw [MdEscape.containsSeq] at h
          rw [Bool.or_eq_false_iff] at h
          have hpre := h.1
          have hcde : (c = '\x60' && d = '\x60' && e = '\x60') = false := by
            by_contra hcon
            simp only [Bool.not_eq_false, Bool.and_eq_true, decide_eq_true_eq] at hcon
            obtain ⟨⟨hc, hd⟩, he⟩ := hcon
            subst hc; subst hd; subst he
            simp [str, List.isPrefixOf] at hpre
          rw [hcde]
          simp only [Bool.false_eq_true, if_false]
          congr 1
          exact ih h.2

/-- Claim C10: when the renderer of `src/renderer.js` serializes a code
block, both the per-code-line rule and the assembled-block rule route
their children through the global rewrite of every (non-overlapping,
leftmost) occurrence of three backticks into three backslash-escaped
backticks; content without a fence sequence is emitted verbatim, content
with one is not. -/
theorem claim_C10 (language : Option (List Char)) (children : List Char) :
    codeRule language children
      = str "```" ++ language.getD [] ++ str "\n"
          ++ replaceFence children ++ str "\n```\n"
  ∧ codeLineRule children = replaceFence children ++ str "\n"
  ∧ (MdEscape.containsSeq (str "```") children = false →
      replaceFence children = children)
  ∧ replaceFence (str "a```b") = str "a\\`\\`\\`b"
  ∧ replaceFence (str "``````") = str "\\`\\`\\`\\`\\`\\`"
  ∧ replaceFence (str "```") ≠ str "```" := by
  refine ⟨rfl, rfl, fun h => replaceFenceGo_id _ h, by decide, by decide, by decide⟩

/-- Witness for C10: fence-free content passes through `replaceFence`
unchanged. -/
theorem claim_C10_witness :
    replaceFence (str "const x = 1;") = str "const x = 1;" :=
  (claim_C10 none (str "const x = 1;")).2.2.1 (by decide)

end RendererJs


namespace SerializerMain

open MdEscape

/-! Embedding of the serializer of the unnamed source file `part_001`
(the variant exercised by the repository's test suite).  Its module-level
mutable variables `tableHeader`, `firstRow`, `version`, `previousBlock`
and `currentBlock` become the fields of an explicit state record that
every rule threads; `document.getParent(obj.key)` becomes the
`parentTy` / `parentIsDoc` arguments carried down the traversal and
`document.getClosest(key, n => n.type === 'code')` the `inCode` flag.
The URL helper `encode` of `urls.js` is not under `src/`; the spec
treats it as an out-of-scope pure helper assumed correct, so the
embedding is parameterized by an arbitrary `enc : List Char → List
Char`. -/

/-- The module-level renderer state of `part_001`. -/
structure PState where
  tableHeader : List Char
  firstRow : Bool
  version : Nat
  previousBlock : Option (String × List Char)
  currentBlock : Option (String × List Char)
deriving DecidableEq, Repr

/-- The state at module load: `let tableHeader = ""`, `let firstRow =
true`, the other three `undefined` (`version` is always assigned before
being read, so any initial value is faithful; we pick `1`). -/
def initState : PState := ⟨[], true, 1, none, none⟩

/-- The `data` map of a node; `obj.getIn(["data", k])` of an absent key
is `undefined`, and `undefined || ""` collapses to the empty string. -/
structure PData where
  align : Option String := none
  language : Option (List Char) := none
  checked : Option Bool := none
  alt : Option (List Char) := none
  src : Option (List Char) := none
  href : Option (List Char) := none
deriving DecidableEq, Repr

mutual
/-- A document node: a text node with its leaves, a block with a type
string, data and children, or an inline (`link` / `hashtag`) with data
and children. -/
inductive PNode where
  | text : List MLeaf → PNode
  | block : String → PData → PForest → PNode
  | inl : String → PData → PForest → PNode
/-- An ordered sequence of sibling nodes. -/
inductive PForest where
  | nil : PForest
  | cons : PNode → PForest → PForest
end

/-- The alignment marker appended to `tableHeader` by the `table-cell`
rule. -/
def alignMark (a : Option String) : List Char :=
  if a = some "left" then str "|:--- "
  else if a = some "center" then str "|:---:"
  else if a = some "right" then str "| ---:"
  else str "| --- "

/-- The `previousBlock` / `currentBlock` update performed at the top of
the block rule: `if (currentBlock) previousBlock = currentBlock;
currentBlock = { obj, children }`. -/
def pushBlock (st : PState) (ty : String) (children : List Char) : PState :=
  match st.currentBlock with
  | some cb => { st with previousBlock := some cb, currentBlock := some (ty, children) }
  | none => { st with currentBlock := some (ty, children) }

/-- JavaScript `children.split("\n")` (keeps empty segments). -/
def splitNl : List Char → List (List Char)
  | [] => [[]]
  | '\n' :: rest => [] :: splitNl rest
  | c :: rest =>
      match splitNl rest with
      | [] => [[c]]
      | seg :: segs => (c :: seg) :: segs

/-- The rewrite `children.replace(/\n+$/gm, "")`: with the multiline
flag, `$` matches before every newline and at the end, so each interior
maximal run of newlines keeps exactly its last newline and a trailing
run is removed entirely; `fuel` is the usual totality device. -/
def collapseNlGo : Nat → List Char → List Char
  | 0, l => l
  | _ + 1, [] => []
  | fuel + 1, c :: rest =>
      if c = '\n' then
        let r := rest.dropWhile (fun d => d = '\n')
        if r = [] then [] else '\n' :: collapseNlGo fuel r
      else c :: collapseNlGo fuel rest

/-- Entry point of the `/\n+$/gm` rewrite. -/
def collapseNl (l : List Char) : List Char := collapseNlGo l.length l

/-- The rewrite `children.replace(/^/gm, "   ")`: three spaces at the
start of every line (including an empty trailing line). -/
def indent3Go : List Char → List Char
  | [] => []
  | '\n' :: rest => '\n' :: (str "   " ++ indent3Go rest)
  | c :: rest => c :: indent3Go rest

/-- Entry point of the `/^/gm` rewrite. -/
def indent3 (l : List Char) : List Char := str "   " ++ indent3Go l

/-- The pure output of the block rule for every case that does not touch
the table state (`table`, `table-cell` and `table-row` are handled in
`blockRule` itself).  A type with no case falls through the rule chain
to `undefined`, collapsed to `[]`. -/
def blockOutput (enc : List Char → List Char) (version : Nat)
    (previousBlock : Option (String × List Char)) (parentTy : Option String)
    (parentIsDoc : Bool) (ty : String) (data : PData)
    (children : List Char) : List Char :=
  if ty = "paragraph" then
    if version = 2 then
      if children = [] then
        match previousBlock with
        | none => []
        | some (pty, pch) =>
            if "table".isPrefixOf pty then []
            else if pch = [] ∧ pty = "paragraph" then str "\\"
            else str "\n\\"
      else children
    else children
  else if ty = "code" then
    str "```" ++ data.language.getD [] ++ str "\n" ++ children ++ str "\n```"
  else if ty = "code-line" then children ++ str "\n"
  else if ty = "block-quote" then
    List.intercalate (str "\n") ((splitNl children).map (fun t => str "> " ++ t))
  else if ty = "todo-list" ∨ ty = "bulleted-list" ∨ ty = "ordered-list" then
    if parentIsDoc then children
    else '\n' :: indent3 (collapseNl children)
  else if ty = "list-item" then
    if parentTy = some "ordered-list" then str "1. " ++ children ++ str "\n"
    else if parentTy = some "todo-list" then
      (if version = 2 then str "- " else [])
        ++ (if data.checked.getD false then str "[x]" else str "[ ]")
        ++ str " " ++ children ++ str "\n"
    else str "* " ++ children ++ str "\n"
  else if ty = "heading1" then str "# " ++ children ++ str "\n"
  else if ty = "heading2" then str "\n## " ++ children ++ str "\n"
  else if ty = "heading3" then str "\n### " ++ children ++ str "\n"
  else if ty = "heading4" then str "\n#### " ++ children ++ str "\n"
  else if ty = "heading5" then str "\n##### " ++ children ++ str "\n"
  else if ty = "heading6" then str "\n###### " ++ children ++ str "\n"
  else if ty = "horizontal-rule" then str "---"
  else if ty = "image" then
    str "![" ++ data.alt.getD [] ++ str "](" ++ enc (data.src.getD []) ++ str ")"
  else []

/-- The block rule of `part_001` (`obj.object === 'block'`): update the
current/previous block tracking, then dispatch on the type; the three
table cases read and write `tableHeader` / `firstRow`. -/
def blockRule (enc : List Char → List Char) (st : PState) (parentTy : Option String)
    (parentIsDoc : Bool) (ty : String) (data : PData)
    (children : List Char) : List Char × PState :=
  let stB := pushBlock st ty children
  if ty = "table" then
    (trim children, { stB with tableHeader := [], firstRow := true })
  else if ty = "table-cell" then
    (str "| " ++ children ++ str " ",
     { stB with tableHeader := stB.tableHeader ++ alignMark data.align })
  else if ty = "table-row" then
    if stB.firstRow then
      (children ++ str "|\n" ++ (stB.tableHeader ++ str "|\n"),
       { stB with tableHeader := [], firstRow := false })
    else (children ++ str "|\n", stB)
  else
    (blockOutput enc stB.version stB.previousBlock parentTy parentIsDoc ty data children,
     stB)

/-- The inline rules (`hashtag` returns its children; `link` encodes the
href, falls back to the href when the trimmed text is empty, and drops
the wrapper when the encoded href is empty). -/
def inlRule (enc : List Char → List Char) (ty : String) (data : PData)
    (children : List Char) : List Char :=
  if ty = "hashtag" then children
  else if ty = "link" then
    let href := enc (data.href.getD [])
    let text := if trim children = [] then href else trim children
    if href = [] then text else str "[" ++ text ++ str "](" ++ href ++ str ")"
  else []

/-- The mark rule of `part_001`: version 2 strips the surrounding
whitespace out of the delimiters; version 1 wraps the children directly.
`if (!children) return` collapses empty children to `[]`. -/
def markRuleP (version : Nat) (m : MType) (children : List Char) : List Char :=
  if children = [] then []
  else if version = 2 then
    let sB := List.replicate (children.takeWhile isWS).length ' '
    let sA := List.replicate (children.reverse.takeWhile isWS).length ' '
    let content := trim children
    match m with
    | .bold => sB ++ str "**" ++ content ++ str "**" ++ sA
    | .italic => sB ++ str "_" ++ content ++ str "_" ++ sA
    | .code => sB ++ str "`" ++ content ++ str "`" ++ sA
    | .inserted => sB ++ str "++" ++ content ++ str "++" ++ sA
    | .deleted => sB ++ str "~~" ++ content ++ str "~~" ++ sA
    | .underlined => sB ++ str "__" ++ content ++ str "__" ++ sA
  else
    match m with
    | .bold => str "**" ++ children ++ str "**"
    | .italic => str "_" ++ children ++ str "_"
    | .code => str "`" ++ children ++ str "`"
    | .inserted => str "++" ++ children ++ str "++"
    | .deleted => str "~~" ++ children ++ str "~~"
    | .underlined => str "__" ++ children ++ str "__"

/-- `serializeLeaves` of `part_001`: escape unless inside a code block or
code mark, then reduce the marks over the text (an empty text is falsy
in `serializeString` and collapses to `[]`, which every mark rule then
propagates). -/
def serializeLeavesP (version : Nat) (lf : MLeaf) (esc : Bool) : List Char :=
  let t := if esc then escapeMarkdownChars lf.text else lf.text
  lf.marks.foldl (fun acc m => markRuleP version m acc) t

mutual
/-- `serializeNode` of `part_001`.  A text node maps `getLeaves()` and
the parent joins with the empty separator; a block or inline node first
serializes its children (joined by `"\n"` exactly for block-quotes),
then applies the first matching rule. -/
def serializeNodeP (enc : List Char → List Char) (st : PState) (inCode : Bool)
    (parentTy : Option String) (parentIsDoc : Bool) : PNode → List Char × PState
  | .text leaves =>
      (((leaves.map (fun lf =>
          serializeLeavesP st.version lf (!inCode && !(lf.marks.contains MType.code))))).flatten,
       st)
  | .block ty data ch =>
      let c := serializeForest enc st (inCode || ty = "code") (some ty) false
        (if ty = "block-quote" then str "\n" else []) ch
      blockRule enc c.2 parentTy parentIsDoc ty data c.1
  | .inl ty data ch =>
      let c := serializeForest enc st (inCode || ty = "code") (some ty) false
        (if ty = "block-quote" then str "\n" else []) ch
      (inlRule enc ty data c.1, c.2)

/-- Serializing a sequence of sibling nodes, threading the state left to
right and joining the fragments with `sep`. -/
def serializeForest (enc : List Char → List Char) (st : PState) (inCode : Bool)
    (parentTy : Option String) (parentIsDoc : Bool) (sep : List Char) :
    PForest → List Char × PState
  | .nil => ([], st)
  | .cons n .nil => serializeNodeP enc st inCode parentTy parentIsDoc n
  | .cons n f =>
      let r1 := serializeNodeP enc st inCode parentTy parentIsDoc n
      let r2 := serializeForest enc r1.2 inCode parentTy parentIsDoc sep f
      (r1.1 ++ sep ++ r2.1, r2.2)
end

/-- The global scan `replace(pat, rep)` for a plain (nonempty) pattern
with the `g` flag: leftmost, non-overlapping, never rescanning the
replacement; `fuel` is the usual totality device. -/
def replaceAllGo (pat rep : List Char) : Nat → List Char → List Char
  | 0, l => l
  | _ + 1, [] => []
  | fuel + 1, c :: rest =>
      if pat.isPrefixOf (c :: rest) then
        rep ++ replaceAllGo pat rep fuel ((c :: rest).drop pat.length)
      else c :: replaceAllGo pat rep fuel rest

/-- Entry point of the global replace. -/
def replaceAll (pat rep l : List Char) : List Char := replaceAllGo pat rep l.length l

/-- The version-2 post-processing of `serialize`: strip the quirky
adjacent-mark boundaries before a backslash. -/
def v2Fix (l : List Char) : List Char :=
  replaceAll (str "__\\") (str "\\")
    (replaceAll (str "``\\") (str "\\")
      (replaceAll (str "____\\") (str "\\")
        (replaceAll (str "~~~~\\") (str "\\")
          (replaceAll (str "++++\\") (str "\\")
            (replaceAll (str "****\\") (str "\\") l)))))

/-- `Markdown.serialize` of `part_001`: reset `version`, `currentBlock`
and `previousBlock` (but not `tableHeader` / `firstRow`), serialize the
top-level nodes joined by newlines, trim leading whitespace, and apply
the version-2 fix-ups. -/
def serialize (enc : List Char → List Char) (st : PState) (optVersion : Option Nat)
    (doc : PForest) : List Char × PState :=
  let v := match optVersion with
    | none => 1
    | some 0 => 1
    | some n => n
  let st := { st with version := v, currentBlock := none, previousBlock := none }
  let r := serializeForest enc st false none true (str "\n") doc
  let out := trimLeft r.1
  (if v = 2 then v2Fix out else out, r.2)

mutual
/-- Well-formedness of a node for the table-state argument: `table-row`
and `table-cell` appear only inside a `table` (inside a `table` anything
is allowed, because the `table` case resets the state after its children
ran). -/
def wfN : PNode → Bool
  | .text _ => true
  | .inl _ _ f => wfF f
  | .block ty _ f =>
      if ty = "table" then true
      else (!(ty = "table-row") && !(ty = "table-cell")) && wfF f
/-- Well-formedness of a forest. -/
def wfF : PForest → Bool
  | .nil => true
  | .cons n f => wfN n && wfF f
end


/-- The current/previous tracking never touches the table state. -/
theorem pushBlock_tableHeader (st : PState) (ty : String) (ch : List Char) :
    (pushBlock st ty ch).tableHeader = st.tableHeader := by
  unfold pushBlock
  cases st.currentBlock <;> rfl

theorem pushBlock_firstRow (st : PState) (ty : String) (ch : List Char) :
    (pushBlock st ty ch).firstRow = st.firstRow := by
  unfold pushBlock
  cases st.currentBlock <;> rfl

theorem pushBlock_version (st : PState) (ty : String) (ch : List Char) :
    (pushBlock st ty ch).version = st.version := by
  unfold pushBlock
  cases st.currentBlock <;> rfl

theorem pushBlock_previousBlock (st : PState) (ty : String) (ch : List Char) :
    (pushBlock st ty ch).previousBlock
      = (match st.currentBlock with
         | some cb => some cb
         | none => st.previousBlock) := by
  unfold pushBlock
  cases st.currentBlock <;> rfl

/-- Outside the three table cases, the block rule only performs the
current/previous update. -/
theorem blockRule_state_other (enc : List Char → List Char) (st : PState)
    (pt : Option String) (pd : Bool) (ty : String) (data : PData) (ch : List Char)
    (ht : ty ≠ "table") (hc : ty ≠ "table-cell") (hr : ty ≠ "table-row") :
    (blockRule enc st pt pd ty data ch).2 = pushBlock st ty ch := by
  unfold blockRule
  rw [if_neg ht, if_neg hc, if_neg hr]

mutual
/-- After serializing a well-formed node from a clean table state, the
table state is clean again. -/
theorem restoreNode (enc : List Char → List Char) (st : PState) (inCode : Bool)
    (pt : Option String) (pd : Bool) (n : PNode) (hw : wfN n = true)
    (h1 : st.tableHeader = []) (h2 : st.firstRow = true) :
    (serializeNodeP enc st inCode pt pd n).2.tableHeader = []
      ∧ (serializeNodeP enc st inCode pt pd n).2.firstRow = true := by
  cases n with
  | text ls => exact ⟨h1, h2⟩
  | inl ty data ch =>
      have hwf : wfF ch = true := hw
      exact restoreForest enc st (inCode || ty = "code") (some ty) false
        (if ty = "block-quote" then str "\n" else []) ch hwf h1 h2
  | block ty data ch =>
      by_cases hty : ty = "table"
      · subst hty
        constructor <;> simp [serializeNodeP, blockRule]
      · have hw' : (!(ty = "table-row") && !(ty = "table-cell")) && wfF ch = true := by
          simpa [wfN, hty] using hw
        simp only [Bool.and_eq_true, Bool.not_eq_true', decide_eq_false_iff_not] at hw'
        obtain ⟨⟨hrow, hcell⟩, hwf⟩ := hw'
        have hwf' : wfF ch = true := by simpa using hwf
        have hch := restoreForest enc st (inCode || ty = "code") (some ty) false
          (if ty = "block-quote" then str "\n" else []) ch hwf' h1 h2
        simp only [serializeNodeP]
        rw [blockRule_state_other enc _ pt pd ty data _ hty hcell hrow]
        rw [pushBlock_tableHeader, pushBlock_firstRow]
        exact hch

/-- After serializing a well-formed forest from a clean table state, the
table state is clean again. -/
theorem restoreForest (enc : List Char → List Char) (st : PState) (inCode : Bool)
    (pt : Option String) (pd : Bool) (sep : List Char) (f : PForest)
    (hw : wfF f = true) (h1 : st.tableHeader = []) (h2 : st.firstRow = true) :
    (serializeForest enc st inCode pt pd sep f).2.tableHeader = []
      ∧ (serializeForest enc st inCode pt pd sep f).2.firstRow = true := by
  cases f with
  | nil => exact ⟨h1, h2⟩
  | cons n f =>
      simp only [wfF, Bool.and_eq_true] at hw
      cases f with
      | nil => exact restoreNode enc st inCode pt pd n hw.1 h1 h2
      | cons n' f' =>
          have hn := restoreNode enc st inCode pt pd n hw.1 h1 h2
          have hf := restoreForest enc (serializeNodeP enc st inCode pt pd n).2 inCode
            pt pd sep (PForest.cons n' f') hw.2 hn.1 hn.2
          simp only [serializeForest]
          exact hf
end

/-- Applying the mark rules of `part_001` over a base string. -/
def applyMarksP (version : Nat) (marks : List MType) (base : List Char) : List Char :=
  marks.foldl (fun acc m => markRuleP version m acc) base

theorem serializeLeavesP_eq (version : Nat) (lf : MLeaf) (inCode : Bool) :
    serializeLeavesP version lf (!inCode && !(lf.marks.contains MType.code))
      = applyMarksP version lf.marks
          (if inCode || lf.marks.contains MType.code then lf.text
           else escapeMarkdownChars lf.text) := by
  unfold serializeLeavesP applyMarksP
  cases inCode <;> cases hc : lf.marks.contains MType.code <;> simp [hc]

/-- Claim C3: a text leaf that carries a `code` mark or sits inside a
code block is serialized with its raw text (the escape function is not
applied); every other leaf has the escape function applied exactly once.
The serializer computes the flag as `!inCodeBlock && !inCodeMark` and
leaf serialization never touches the renderer state. -/
theorem claim_C3 (enc : List Char → List Char) (st : PState) (inCode : Bool)
    (pt : Option String) (pd : Bool) (leaves : List MLeaf) :
    serializeNodeP enc st inCode pt pd (.text leaves)
      = (((leaves.map (fun lf =>
            applyMarksP st.version lf.marks
              (if inCode || lf.marks.contains MType.code then lf.text
               else escapeMarkdownChars lf.text)))).flatten, st) := by
  simp only [serializeNodeP, Prod.mk.injEq]
  refine ⟨?_, trivial⟩
  congr 1
  exact List.map_congr_left fun lf _ => serializeLeavesP_eq st.version lf inCode

/-- Claim C4: a link node whose target URL is empty is rendered as its
bare (trimmed) text — the `[text](href)` wrapper is dropped.  The URL
encoder is out of scope (`urls.js` is not under `src/`); any encoder
mapping the empty string to itself works. -/
theorem claim_C4 (enc : List Char → List Char) (data : PData) (children : List Char)
    (hhref : data.href = none ∨ data.href = some []) (henc : enc [] = []) :
    inlRule enc "link" data children = trim children := by
  have h0 : data.href.getD [] = [] := by rcases hhref with h | h <;> simp [h]
  unfold inlRule
  rw [if_neg (by decide), if_pos rfl]
  dsimp only
  rw [h0, henc]
  by_cases h : trim children = [] <;> simp [h]

/-- Witness for C4: the empty-href link around `" empty "` renders as
the word `empty` alone. -/
theorem claim_C4_witness :
    inlRule (fun l => l) "link" ⟨none, none, none, none, none, none⟩
        (str " empty ") = trim (str " empty ") :=
  claim_C4 (fun l => l) ⟨none, none, none, none, none, none⟩ (str " empty ")
    (Or.inl rfl) rfl

/-- Claim C5: a list-item marker is determined solely by the parent list
type — under an ordered list it is always the literal `1. ` (no position
information enters the rule), under a todo list it is `[x] ` when
checked and `[ ] ` when not (in the default version-1 output), and under
a bulleted list (or any other parent) it is `* `. -/
theorem claim_C5 (enc : List Char → List Char) (st : PState) (pd : Bool)
    (data : PData) (children : List Char) (hv : st.version = 1) :
    (blockRule enc st (some "ordered-list") pd "list-item" data children).1
        = str "1. " ++ children ++ str "\n"
  ∧ (blockRule enc st (some "todo-list") pd "list-item" data children).1
        = (if data.checked.getD false then str "[x]" else str "[ ]")
            ++ str " " ++ children ++ str "\n"
  ∧ (blockRule enc st (some "bulleted-list") pd "list-item" data children).1
        = str "* " ++ children ++ str "\n" := by
  have hver : (pushBlock st "list-item" children).version = 1 := by
    rw [pushBlock_version, hv]
  refine ⟨?_, ?_, ?_⟩ <;> simp [blockRule, blockOutput, hver]

/-- Witness for C5 at the default state (version 1), a checked item. -/
theorem claim_C5_witness :
    (blockRule (fun l => l) initState (some "ordered-list") true "list-item"
        ⟨none, none, some true, none, none, none⟩ (str "x")).1
        = str "1. " ++ str "x" ++ str "\n"
  ∧ (blockRule (fun l => l) initState (some "todo-list") true "list-item"
        ⟨none, none, some true, none, none, none⟩ (str "x")).1
        = (if (some true : Option Bool).getD false then str "[x]" else str "[ ]")
            ++ str " " ++ str "x" ++ str "\n"
  ∧ (blockRule (fun l => l) initState (some "bulleted-list") true "list-item"
        ⟨none, none, some true, none, none, none⟩ (str "x")).1
        = str "* " ++ str "x" ++ str "\n" :=
  claim_C5 (fun l => l) initState true ⟨none, none, some true, none, none, none⟩
    (str "x") rfl

/-- Claim C7: the serializer is deterministic across calls — its output
on a well-formed tree does not depend on anything a previous call could
have left behind.  `serialize` itself resets `version`, `currentBlock`
and `previousBlock`; the table bookkeeping (`tableHeader`, `firstRow`)
is not reset on entry, but every call that starts from the clean table
state (which is the module-load state) ends in the clean table state
again, so in any sequence of calls on well-formed trees every call
behaves exactly like a call on the freshly loaded module. -/
theorem claim_C7 (enc : List Char → List Char) (st : PState) (optV : Option Nat)
    (doc : PForest) (h1 : st.tableHeader = []) (h2 : st.firstRow = true)
    (hw : wfF doc = true) :
    (serialize enc st optV doc).1 = (serialize enc initState optV doc).1
  ∧ (serialize enc st optV doc).2.tableHeader = []
  ∧ (serialize enc st optV doc).2.firstRow = true := by
  have hkey : ∀ v : Nat,
      ({ st with version := v, currentBlock := none, previousBlock := none } : PState)
        = (⟨[], true, v, none, none⟩ : PState) := by
    intro v
    obtain ⟨th, fr, ver, pb, cb⟩ := st
    dsimp only at h1 h2
    subst h1
    subst h2
    rfl
  have hkey2 : ∀ v : Nat,
      ({ initState with version := v, currentBlock := none, previousBlock := none } : PState)
        = (⟨[], true, v, none, none⟩ : PState) := fun _ => rfl
  refine ⟨?_, ?_, ?_⟩
  · unfold serialize
    dsimp only
    rw [hkey, hkey2]
  · unfold serialize
    dsimp only
    rw [hkey]
    exact (restoreForest enc _ false none true (str "\n") doc hw rfl rfl).1
  · unfold serialize
    dsimp only
    rw [hkey]
    exact (restoreForest enc _ false none true (str "\n") doc hw rfl rfl).2

/-- Witness for C7: a state with stale current/previous block tracking
(as a previous call leaves behind) produces the same output as the
module-load state, and the post-state table bookkeeping is clean. -/
theorem claim_C7_witness :
    ((serialize (fun l => l)
        ⟨[], true, 2, some ("paragraph", str "stale"), some ("heading1", str "old")⟩
        none
        (PForest.cons
          (PNode.block "paragraph" ⟨none, none, none, none, none, none⟩
            (PForest.cons (PNode.text [⟨str "hello", [MType.bold]⟩]) PForest.nil))
          PForest.nil)).1
      = (serialize (fun l => l) initState none
        (PForest.cons
          (PNode.block "paragraph" ⟨none, none, none, none, none, none⟩
            (PForest.cons (PNode.text [⟨str "hello", [MType.bold]⟩]) PForest.nil))
          PForest.nil)).1)
  ∧ (serialize (fun l => l)
        ⟨[], true, 2, some ("paragraph", str "stale"), some ("heading1", str "old")⟩
        none
        (PForest.cons
          (PNode.block "paragraph" ⟨none, none, none, none, none, none⟩
            (PForest.cons (PNode.text [⟨str "hello", [MType.bold]⟩]) PForest.nil))
          PForest.nil)).2.tableHeader = []
  ∧ (serialize (fun l => l)
        ⟨[], true, 2, some ("paragraph", str "stale"), some ("heading1", str "old")⟩
        none
        (PForest.cons
          (PNode.block "paragraph" ⟨none, none, none, none, none, none⟩
            (PForest.cons (PNode.text [⟨str "hello", [MType.bold]⟩]) PForest.nil))
          PForest.nil)).2.firstRow = true :=
  claim_C7 (fun l => l)
    ⟨[], true, 2, some ("paragraph", str "stale"), some ("heading1", str "old")⟩
    none
    (PForest.cons
      (PNode.block "paragraph" ⟨none, none, none, none, none, none⟩
        (PForest.cons (PNode.text [⟨str "hello", [MType.bold]⟩]) PForest.nil))
      PForest.nil)
    rfl rfl (by decide)

end SerializerMain

